import Mathlib

/-!
# Verification of the `pavex_static_files` path resolver

A shallow embedding of `src/static_server.rs`: the mount-path normalization,
the request-path-to-filesystem-path resolver `StaticServer::resolve`, and the
reader `StaticServer::read_file`.

Strings are modelled at the character level (`String.data`). Filesystem paths
are modelled as lists of components below the filesystem root, and the
filesystem itself as a finite, symlink-free tree: an association of canonical
absolute paths to node kinds. On such a tree `std::fs::canonicalize` is
`realpath`: walk the components, resolving `.` and `..`, requiring every
intermediate prefix to be an existing directory and the final path to exist.
The byte reader (`std::fs::read`) and the MIME lookup (`guess_mime_type`,
a thin wrapper over the external `mime_guess` crate) are abstract collaborator
functions.
-/

set_option autoImplicit false

namespace PavexStatic

/-- Rust `str::starts_with` with a string pattern, character-wise. -/
def startsWithStr (s pat : String) : Bool :=
  pat.data.isPrefixOf s.data

/-- Rust `str::starts_with('/')`-style check for a single leading character. -/
def startsWithChar (s : String) (c : Char) : Bool :=
  s.data.head? == some c

/-- Rust `str::strip_prefix(pat).unwrap_or("")`. -/
def stripPrefixOrEmpty (s pat : String) : String :=
  if pat.data.isPrefixOf s.data then String.mk (s.data.drop pat.data.length) else ""

/-- Rust `str::trim_start_matches('/')`: drop every leading slash. -/
def trimStartSlashes (s : String) : String :=
  String.mk (s.data.dropWhile (fun c => c == '/'))

/-- Rust `str::trim_end_matches('/')`: drop every trailing slash. -/
def trimEndSlashes (s : String) : String :=
  String.mk ((s.data.reverse.dropWhile (fun c => c == '/')).reverse)

/-- `normalize_mount_path` from `src/static_server.rs`: the literal root
`"/"` maps to itself; otherwise trailing slashes are stripped and a leading
slash is prepended when missing. -/
def normalize_mount_path (path : String) : String :=
  if path = "/" then "/"
  else if startsWithChar (trimEndSlashes path) '/' then trimEndSlashes path
  else String.mk ('/' :: (trimEndSlashes path).data)

/-- A filesystem path: its list of components below the filesystem root. -/
abbrev FsPath := List String

/-- The kind of a filesystem node. -/
inductive NodeKind where
  | file
  | dir
  deriving DecidableEq

/-- A symlink-free filesystem: a finite association of canonical absolute
paths to node kinds. -/
structure FSys where
  nodes : List (FsPath × NodeKind)

/-- Look up the node stored at an (already canonical) path. -/
def FSys.lookup (fs : FSys) (p : FsPath) : Option NodeKind :=
  (fs.nodes.find? (fun e => e.1 == p)).map (fun e => e.2)

/-- Is an (already canonical) path a directory of the tree? -/
def FSys.isDirNode (fs : FSys) (p : FsPath) : Bool :=
  match fs.lookup p with
  | some NodeKind.dir => true
  | _ => false

/-- The component walk of `realpath` on a symlink-free tree: consume the
components one by one, skipping `.`, resolving `..` to the parent, and
requiring the prefix resolved so far to be an existing directory before
descending. -/
def FSys.walk (fs : FSys) : FsPath → List String → Option FsPath
  | acc, [] => some acc
  | acc, c :: rest =>
    if fs.isDirNode acc then
      if c = "." then fs.walk acc rest
      else if c = ".." then fs.walk acc.dropLast rest
      else fs.walk (acc ++ [c]) rest
    else none

/-- Model of `std::fs::canonicalize` on a symlink-free tree: resolve `.` and
`..` with `FSys.walk`, then require the resulting path to exist. -/
def FSys.canonicalize (fs : FSys) (p : FsPath) : Option FsPath :=
  match fs.walk [] p with
  | some q => if (fs.lookup q).isSome then some q else none
  | none => none

/-- Model of `std::fs::metadata`: resolve the full path as the OS does, then
report the node kind found there. -/
def FSys.stat (fs : FSys) (p : FsPath) : Option NodeKind :=
  match fs.canonicalize p with
  | some q => fs.lookup q
  | none => none

/-- Rust `Path::is_dir`. -/
def FSys.pathIsDir (fs : FSys) (p : FsPath) : Bool :=
  match fs.stat p with
  | some NodeKind.dir => true
  | _ => false

/-- Rust `Path::is_file`. -/
def FSys.pathIsFile (fs : FSys) (p : FsPath) : Bool :=
  match fs.stat p with
  | some NodeKind.file => true
  | _ => false

/-- Rust `Path::exists`. -/
def FSys.pathExists (fs : FSys) (p : FsPath) : Bool :=
  (fs.stat p).isSome

/-- Split a character list at `/` separators, like `str::split('/')`. -/
def splitSlash : List Char → List String
  | [] => [""]
  | c :: rest =>
    if c = '/' then "" :: splitSlash rest
    else match splitSlash rest with
      | [] => [String.mk [c]]
      | s :: tail => String.mk (c :: s.data) :: tail

/-- The components of a path string, as Rust `Path::components` yields them:
split on `/`, dropping empty segments. -/
def splitPath (s : String) : List String :=
  (splitSlash s.data).filter (fun c => c != "")

/-- Rust `PathBuf::join` with a string argument: an absolute argument replaces
the base wholesale, a relative argument has its components appended. -/
def joinPath (base : FsPath) (rel : String) : FsPath :=
  if startsWithChar rel '/' then splitPath rel else base ++ splitPath rel

/-- `StaticServerConfig` from `src/config.rs`. -/
structure StaticServerConfig where
  mount_path : String
  root_dir : FsPath
  serve_index : Bool

/-- `StaticServer` from `src/static_server.rs`. -/
structure StaticServer where
  mount_path : String
  root_dir : FsPath
  serve_index : Bool

/-- `StaticServer::from_config`: normalize the configured mount path. -/
def StaticServer.from_config (config : StaticServerConfig) : StaticServer :=
  ⟨normalize_mount_path config.mount_path, config.root_dir, config.serve_index⟩

/-- The relative path computed inside `StaticServer::resolve`: strip the mount
prefix, then strip every leading `/` from the remainder. -/
def StaticServer.relativePath (srv : StaticServer) (request_path : String) : String :=
  trimStartSlashes (stripPrefixOrEmpty request_path srv.mount_path)

/-- The candidate path of `StaticServer::resolve`: the relative path joined
onto the root directory, with `index.html` appended when the join is an
existing directory and `serve_index` is set. -/
def candidatePath (fs : FSys) (srv : StaticServer) (request_path : String) : FsPath :=
  let full_path := joinPath srv.root_dir (srv.relativePath request_path)
  if fs.pathIsDir full_path && srv.serve_index then full_path ++ ["index.html"]
  else full_path

/-- The tail of `StaticServer::resolve` once the candidate path is fixed:
canonicalize the candidate and the root (failure of either aborts), require
the canonical candidate to start with the canonical root, and require it to
exist and be a regular file. -/
def checkCandidate (fs : FSys) (root_dir : FsPath) (full_path : FsPath) : Option FsPath :=
  match fs.canonicalize full_path, fs.canonicalize root_dir with
  | some canonical_full, some canonical_root =>
    if !(canonical_root.isPrefixOf canonical_full) then none
    else if fs.pathExists canonical_full && fs.pathIsFile canonical_full then
      some canonical_full
    else none
  | _, _ => none

/-- `StaticServer::resolve` from `src/static_server.rs`. -/
def StaticServer.resolve (fs : FSys) (srv : StaticServer) (request_path : String) :
    Option FsPath :=
  if !(startsWithStr request_path srv.mount_path) then none
  else checkCandidate fs srv.root_dir (candidatePath fs srv request_path)

/-- `StaticFile` from `src/static_server.rs`; bytes are abstract numbers. -/
structure StaticFile where
  body : List Nat
  mime_type : String
  path : FsPath
  deriving DecidableEq

/-- `ServeError` from `src/errors.rs`, over an abstract I/O-error type. -/
inductive ServeError (ε : Type) where
  | NotFound
  | Io (e : ε)
  deriving DecidableEq

/-- `StaticServer::read_file`: resolve, mapping absence to `NotFound`; read
the bytes through the reader collaborator (`std::fs::read`), wrapping its
failure in `Io`; attach the MIME lookup's content type and the resolved
path. -/
def StaticServer.read_file {ε : Type} (fs : FSys)
    (readBytes : FsPath → Except ε (List Nat))
    (guessMime : FsPath → String)
    (srv : StaticServer) (request_path : String) :
    Except (ServeError ε) StaticFile :=
  match StaticServer.resolve fs srv request_path with
  | none => Except.error ServeError.NotFound
  | some file_path =>
    match readBytes file_path with
    | Except.error e => Except.error (ServeError.Io e)
    | Except.ok body => Except.ok ⟨body, guessMime file_path, file_path⟩

/-- Modelled from the spec: "strip any single leading `/` from the remainder"
(§4.1 step 2) — at most one leading slash removed, for comparison with the
code's `trim_start_matches('/')`. -/
def stripOneLeadingSlash (s : String) : String :=
  match s.data with
  | '/' :: rest => String.mk rest
  | _ => s

/-- The spec's variant of the relative-path computation: strip the mount
prefix, then strip a single leading slash. -/
def StaticServer.relativePathSpec (srv : StaticServer) (request_path : String) : String :=
  stripOneLeadingSlash (stripPrefixOrEmpty request_path srv.mount_path)

/-- Number of leading `/` characters of a string. -/
def leadingSlashCount (s : String) : Nat :=
  (s.data.takeWhile (fun c => c == '/')).length

/-- A small example tree: the served root `/root` holding a plain file, a
directory with an index file and one without, next to a sibling file
outside the root. -/
def exFS : FSys :=
  ⟨[([], NodeKind.dir),
    (["root"], NodeKind.dir),
    (["root", "hello.txt"], NodeKind.file),
    (["root", "docs"], NodeKind.dir),
    (["root", "docs", "index.html"], NodeKind.file),
    (["root", "images"], NodeKind.dir),
    (["outside.txt"], NodeKind.file)]⟩

/-- An example server mounted at `/static` over the example tree's root. -/
def exSrv (serve_index : Bool) : StaticServer :=
  ⟨"/static", ["root"], serve_index⟩

/-! ## Helper lemmas on the string operations -/

lemma head?_dropWhile_slash_ne (l : List Char) :
    (l.dropWhile (fun c => c == '/')).head? ≠ some '/' := by
  have h := List.head?_dropWhile_not (fun c => c == '/') l
  intro hc
  rw [hc] at h
  simp at h

lemma dropWhile_slash_eq_self (l : List Char) (h : l.head? ≠ some '/') :
    l.dropWhile (fun c => c == '/') = l := by
  cases l with
  | nil => rfl
  | cons a t =>
    have ha : ¬ a = '/' := by
      intro he
      exact h (by simp [he])
    simp [List.dropWhile_cons, ha]

lemma getLast?_trimEndSlashes (s : String) :
    (trimEndSlashes s).data.getLast? ≠ some '/' := by
  show ((s.data.reverse.dropWhile (fun c => c == '/')).reverse).getLast? ≠ some '/'
  rw [List.getLast?_reverse]
  exact head?_dropWhile_slash_ne _

lemma trimEndSlashes_eq_self (s : String) (h : s.data.getLast? ≠ some '/') :
    trimEndSlashes s = s := by
  obtain ⟨l⟩ := s
  have h2 : l.reverse.head? ≠ some '/' := by
    rw [List.head?_reverse]
    exact h
  show String.mk ((l.reverse.dropWhile (fun c => c == '/')).reverse) = String.mk l
  rw [dropWhile_slash_eq_self _ h2, List.reverse_reverse]

/-- The shape of every `normalize_mount_path` output: the literal root, or a
string with a leading slash and no trailing slash. -/
lemma nmp_shape (s : String) :
    normalize_mount_path s = "/" ∨
    ((normalize_mount_path s).data.head? = some '/' ∧
     (normalize_mount_path s).data.getLast? ≠ some '/') := by
  unfold normalize_mount_path
  by_cases hs : s = "/"
  · left
    simp [hs]
  · rw [if_neg hs]
    by_cases hc : startsWithChar (trimEndSlashes s) '/' = true
    · right
      rw [if_pos hc]
      refine ⟨?_, getLast?_trimEndSlashes s⟩
      simpa [startsWithChar] using hc
    · rw [if_neg hc]
      cases ht : (trimEndSlashes s).data with
      | nil =>
        left
        decide
      | cons b m =>
        right
        constructor
        · simp
        · show (('/' :: b :: m).getLast?) ≠ some '/'
          rw [List.getLast?_cons_cons]
          rw [← ht]
          exact getLast?_trimEndSlashes s

lemma nmp_idem (s : String) :
    normalize_mount_path (normalize_mount_path s) = normalize_mount_path s := by
  rcases nmp_shape s with h | ⟨hh, hl⟩
  · rw [h]
    decide
  · generalize hn : normalize_mount_path s = n at hh hl
    unfold normalize_mount_path
    by_cases h1 : n = "/"
    · rw [if_pos h1, h1]
    · rw [if_neg h1]
      rw [trimEndSlashes_eq_self n hl]
      have hc : startsWithChar n '/' = true := by
        simp [startsWithChar, hh]
      rw [if_pos hc]

/-! ## Claims C2, C3, C4 -/

/-- C2: for every configured root and mount prefix, `resolve` applied to any
request path that does not start with the normalized mount path returns
`None`. -/
theorem resolve_outside_mount (fs : FSys) (config : StaticServerConfig)
    (request_path : String)
    (h : startsWithStr request_path (normalize_mount_path config.mount_path) = false) :
    StaticServer.resolve fs (StaticServer.from_config config) request_path = none := by
  simp [StaticServer.resolve, StaticServer.from_config, h]

/-- Witness for C2: a request outside the `/static` mount resolves to none. -/
theorem resolve_outside_mount_witness :
    StaticServer.resolve exFS (StaticServer.from_config ⟨"/static", ["root"], false⟩)
      "/other/hello.txt" = none :=
  resolve_outside_mount exFS ⟨"/static", ["root"], false⟩ "/other/hello.txt" (by decide)

/-- C3 counterexample: on input `"//a"`, `normalize_mount_path` yields `"//a"`,
which is neither the literal `"/"` nor a string with exactly one leading
slash. -/
theorem nmp_one_leading_slash_counterexample :
    ¬ (normalize_mount_path "//a" = "/" ∨
       ((normalize_mount_path "//a").data.getLast? ≠ some '/' ∧
        leadingSlashCount (normalize_mount_path "//a") = 1)) := by
  decide

/-- C3 as amended: for every input string, `normalize_mount_path` succeeds and
its output is either exactly `"/"` or a string with no trailing slash and at
least one leading slash. -/
theorem nmp_normal_form (s : String) :
    normalize_mount_path s = "/" ∨
    ((normalize_mount_path s).data.getLast? ≠ some '/' ∧
     1 ≤ leadingSlashCount (normalize_mount_path s)) := by
  rcases nmp_shape s with h | ⟨hh, hl⟩
  · left
    exact h
  · right
    refine ⟨hl, ?_⟩
    unfold leadingSlashCount
    cases hd : (normalize_mount_path s).data with
    | nil => rw [hd] at hh; simp at hh
    | cons a t =>
      rw [hd] at hh
      have ha : a = '/' := by simpa using hh
      simp [List.takeWhile_cons, ha]

/-- C4: mount-path normalization is idempotent, `"a"`, `"/a"`, `"/a/"`, `"a/"`
all normalize to `"/a"`, and the literal `"/"` normalizes to `"/"`. -/
theorem nmp_idempotent_and_examples :
    (∀ s, normalize_mount_path (normalize_mount_path s) = normalize_mount_path s) ∧
    normalize_mount_path "a" = "/a" ∧
    normalize_mount_path "/a" = "/a" ∧
    normalize_mount_path "/a/" = "/a" ∧
    normalize_mount_path "a/" = "/a" ∧
    normalize_mount_path "/" = "/" :=
  ⟨nmp_idem, by decide, by decide, by decide, by decide, by decide⟩

/-! ## Helper lemmas on the filesystem walk -/

lemma walk_append (fs : FSys) (xs ys : List String) :
    ∀ acc, fs.walk acc (xs ++ ys) = (fs.walk acc xs).bind (fun m => fs.walk m ys) := by
  induction xs with
  | nil =>
    intro acc
    simp [FSys.walk]
  | cons c r ih =>
    intro acc
    simp only [List.cons_append, FSys.walk, List.append_eq]
    by_cases hd : fs.isDirNode acc = true
    · rw [if_pos hd, if_pos hd]
      by_cases h1 : c = "."
      · rw [if_pos h1, if_pos h1, ih]
      · rw [if_neg h1, if_neg h1]
        by_cases h2 : c = ".."
        · rw [if_pos h2, if_pos h2, ih]
        · rw [if_neg h2, if_neg h2, ih]
    · rw [if_neg hd, if_neg hd]
      simp

lemma walk_out_plain (fs : FSys) (rest : List String) :
    ∀ acc out, fs.walk acc rest = some out →
      (∀ c ∈ acc, ¬ c = "." ∧ ¬ c = "..") →
      ∀ c ∈ out, ¬ c = "." ∧ ¬ c = ".." := by
  induction rest with
  | nil =>
    intro acc out h hacc
    simp [FSys.walk] at h
    rw [← h]
    exact hacc
  | cons c r ih =>
    intro acc out h hacc
    simp only [FSys.walk] at h
    by_cases hd : fs.isDirNode acc = true
    · rw [if_pos hd] at h
      by_cases h1 : c = "."
      · rw [if_pos h1] at h
        exact ih acc out h hacc
      · rw [if_neg h1] at h
        by_cases h2 : c = ".."
        · rw [if_pos h2] at h
          refine ih _ out h ?_
          intro x hx
          exact hacc x ((List.dropLast_prefix acc).subset hx)
        · rw [if_neg h2] at h
          refine ih _ out h ?_
          intro x hx
          rcases List.mem_append.mp hx with hxa | hxc
          · exact hacc x hxa
          · have hxe : x = c := by simpa using hxc
            rw [hxe]
            exact ⟨h1, h2⟩
    · rw [if_neg hd] at h
      simp at h

lemma walk_out_dirs (fs : FSys) (rest : List String) :
    ∀ acc out, fs.walk acc rest = some out →
      (∀ q, q <+: acc → ¬ q = acc → fs.isDirNode q = true) →
      ∀ q, q <+: out → ¬ q = out → fs.isDirNode q = true := by
  induction rest with
  | nil =>
    intro acc out h hacc
    simp [FSys.walk] at h
    rw [← h]
    exact hacc
  | cons c r ih =>
    intro acc out h hacc
    simp only [FSys.walk] at h
    by_cases hd : fs.isDirNode acc = true
    · rw [if_pos hd] at h
      by_cases h1 : c = "."
      · rw [if_pos h1] at h
        exact ih acc out h hacc
      · rw [if_neg h1] at h
        by_cases h2 : c = ".."
        · rw [if_pos h2] at h
          refine ih _ out h ?_
          intro q hq hne
          cases acc with
          | nil =>
            exfalso
            rw [List.dropLast_nil] at hq hne
            exact hne (List.prefix_nil.mp hq)
          | cons a t =>
            have hqa : q <+: a :: t := hq.trans (List.dropLast_prefix _)
            have h3 : q.length ≤ ((a :: t).dropLast).length := hq.length_le
            have hne2 : ¬ q = a :: t := by
              intro he
              rw [he] at h3
              simp only [List.length_dropLast, List.length_cons] at h3
              omega
            exact hacc q hqa hne2
        · rw [if_neg h2] at h
          refine ih _ out h ?_
          intro q hq hne
          rcases List.prefix_concat_iff.mp hq with he | hqpre
          · exact absurd he hne
          · rcases eq_or_ne q acc with he2 | hne2
            · rw [he2]
              exact hd
            · exact hacc q hqpre hne2
    · rw [if_neg hd] at h
      simp at h

lemma walk_of_plain (fs : FSys) (rest : List String) :
    ∀ acc, (∀ c ∈ rest, ¬ c = "." ∧ ¬ c = "..") →
      (∀ q, q <+: acc ++ rest → ¬ q = acc ++ rest → fs.isDirNode q = true) →
      fs.walk acc rest = some (acc ++ rest) := by
  induction rest with
  | nil =>
    intro acc _ _
    simp [FSys.walk]
  | cons c r ih =>
    intro acc hplain hdirs
    have hre : (acc ++ [c]) ++ r = acc ++ (c :: r) := by simp
    have hd : fs.isDirNode acc = true := by
      refine hdirs acc (List.prefix_append acc (c :: r)) ?_
      intro he
      have hlen := congrArg List.length he
      simp at hlen
    have hc1 : ¬ c = "." := (hplain c (by simp)).1
    have hc2 : ¬ c = ".." := (hplain c (by simp)).2
    simp only [FSys.walk]
    rw [if_pos hd, if_neg hc1, if_neg hc2]
    have hrec : fs.walk (acc ++ [c]) r = some ((acc ++ [c]) ++ r) := by
      refine ih (acc ++ [c]) (fun x hx => hplain x (List.mem_cons_of_mem c hx)) ?_
      intro q hq hne
      rw [hre] at hq hne
      exact hdirs q hq hne
    rw [hrec, hre]

/-- `canonicalize` after a successful walk is just the final existence check. -/
lemma canonicalize_walk_some (fs : FSys) (p m : FsPath) (hw : fs.walk [] p = some m) :
    fs.canonicalize p = if (fs.lookup m).isSome = true then some m else none := by
  unfold FSys.canonicalize
  rw [hw]

/-- Destructing a successful canonicalization into its walk and the final
existence check. -/
lemma canonicalize_eq_parts (fs : FSys) (p q : FsPath) (h : fs.canonicalize p = some q) :
    fs.walk [] p = some q ∧ (fs.lookup q).isSome = true := by
  cases hw : fs.walk [] p with
  | none =>
    unfold FSys.canonicalize at h
    rw [hw] at h
    simp at h
  | some m =>
    rw [canonicalize_walk_some fs p m hw] at h
    by_cases hl : (fs.lookup m).isSome = true
    · rw [if_pos hl] at h
      injection h with h
      subst h
      exact ⟨rfl, hl⟩
    · rw [if_neg hl] at h
      simp at h

/-- Canonical paths are fixed points of canonicalization: the model's
counterpart of `canonicalize` returning an already-canonical path. -/
lemma canonicalize_idem (fs : FSys) (p q : FsPath) (h : fs.canonicalize p = some q) :
    fs.canonicalize q = some q := by
  obtain ⟨hw, hl⟩ := canonicalize_eq_parts fs p q h
  have hplain : ∀ c ∈ q, ¬ c = "." ∧ ¬ c = ".." :=
    walk_out_plain fs p [] q hw (by intro c hc; simp at hc)
  have hdirs : ∀ r, r <+: q → ¬ r = q → fs.isDirNode r = true := by
    refine walk_out_dirs fs p [] q hw ?_
    intro r hr hne
    exact absurd (List.prefix_nil.mp hr) hne
  have hwq : fs.walk [] q = some ([] ++ q) := by
    refine walk_of_plain fs q [] hplain ?_
    intro r hr hne
    rw [List.nil_append] at hr hne
    exact hdirs r hr hne
  rw [List.nil_append] at hwq
  unfold FSys.canonicalize
  rw [hwq]
  simp [hl]

/-- Appending one plain component to a walked path walks to the appended
canonical path, provided the walked path is a directory. -/
lemma walk_snoc (fs : FSys) (p d : FsPath) (c : String)
    (hw : fs.walk [] p = some d) (hd : fs.isDirNode d = true)
    (h1 : ¬ c = ".") (h2 : ¬ c = "..") :
    fs.walk [] (p ++ [c]) = some (d ++ [c]) := by
  rw [walk_append fs p [c] [], hw]
  simp [FSys.walk, hd, h1, h2]

/-- On a canonical existing path, `stat` is the plain lookup. -/
lemma stat_canonical (fs : FSys) (p q : FsPath) (h : fs.canonicalize p = some q) :
    fs.stat q = fs.lookup q := by
  have hc := canonicalize_idem fs p q h
  unfold FSys.stat
  rw [hc]

/-- Rewriting equation for `checkCandidate` when the candidate fails to
canonicalize. -/
lemma checkCandidate_none_full (fs : FSys) (root full : FsPath)
    (h : fs.canonicalize full = none) : checkCandidate fs root full = none := by
  unfold checkCandidate
  rw [h]

/-- Rewriting equation for `checkCandidate` when the root fails to
canonicalize. -/
lemma checkCandidate_none_root (fs : FSys) (root full cf : FsPath)
    (h1 : fs.canonicalize full = some cf) (h2 : fs.canonicalize root = none) :
    checkCandidate fs root full = none := by
  unfold checkCandidate
  rw [h1, h2]

/-- Rewriting equation for `checkCandidate` when both canonicalizations
succeed. -/
lemma checkCandidate_some_some (fs : FSys) (root full cf cr : FsPath)
    (h1 : fs.canonicalize full = some cf) (h2 : fs.canonicalize root = some cr) :
    checkCandidate fs root full =
      (if (!cr.isPrefixOf cf) = true then none
       else if (fs.pathExists cf && fs.pathIsFile cf) = true then some cf else none) := by
  unfold checkCandidate
  rw [h1, h2]

/-- Forward destructor for the candidate check: a successful resolution is the
canonical candidate and it passed the containment comparison. -/
lemma checkCandidate_some_dest (fs : FSys) (root full p : FsPath)
    (h : checkCandidate fs root full = some p) :
    fs.canonicalize full = some p ∧
    ∃ cr, fs.canonicalize root = some cr ∧ cr.isPrefixOf p = true := by
  cases h1 : fs.canonicalize full with
  | none =>
    rw [checkCandidate_none_full fs root full h1] at h
    simp at h
  | some cf =>
    cases h2 : fs.canonicalize root with
    | none =>
      rw [checkCandidate_none_root fs root full cf h1 h2] at h
      simp at h
    | some cr =>
      rw [checkCandidate_some_some fs root full cf cr h1 h2] at h
      by_cases h3 : cr.isPrefixOf cf = true
      · rw [h3] at h
        simp only [Bool.not_true] at h
        rw [if_neg (by simp)] at h
        by_cases h4 : (fs.pathExists cf && fs.pathIsFile cf) = true
        · rw [if_pos h4] at h
          injection h with h
          subst h
          exact ⟨rfl, cr, rfl, h3⟩
        · rw [if_neg h4] at h
          simp at h
      · have h3f : cr.isPrefixOf cf = false := by
          revert h3
          cases cr.isPrefixOf cf <;> simp
        rw [h3f] at h
        simp at h

/-! ## Claims C1, C5, C10 -/

/-- C1: whenever `resolve` returns a path, that path is the canonicalized
candidate path and is equal to or nested under the canonicalized root
directory; conversely, whenever the canonical candidate lies outside the
canonical root, `resolve` returns none. -/
theorem resolve_containment :
    (∀ (fs : FSys) (srv : StaticServer) (request_path : String) (p : FsPath),
      StaticServer.resolve fs srv request_path = some p →
      fs.canonicalize (candidatePath fs srv request_path) = some p ∧
      ∃ cr, fs.canonicalize srv.root_dir = some cr ∧ cr.isPrefixOf p = true) ∧
    (∀ (fs : FSys) (srv : StaticServer) (request_path : String) (cf cr : FsPath),
      fs.canonicalize (candidatePath fs srv request_path) = some cf →
      fs.canonicalize srv.root_dir = some cr →
      cr.isPrefixOf cf = false →
      StaticServer.resolve fs srv request_path = none) := by
  constructor
  · intro fs srv request_path p h
    unfold StaticServer.resolve at h
    cases hs : startsWithStr request_path srv.mount_path with
    | false =>
      rw [if_pos (by simp [hs])] at h
      exact absurd h (by simp)
    | true =>
      rw [if_neg (by simp [hs])] at h
      exact checkCandidate_some_dest fs srv.root_dir (candidatePath fs srv request_path) p h
  · intro fs srv request_path cf cr h1 h2 h3
    unfold StaticServer.resolve
    cases hs : startsWithStr request_path srv.mount_path with
    | false =>
      rw [if_pos (by simp [hs])]
    | true =>
      rw [if_neg (by simp [hs])]
      rw [checkCandidate_some_some fs srv.root_dir (candidatePath fs srv request_path) cf cr h1 h2]
      rw [h3]
      simp

/-- Witness for C1: the served `hello.txt` is canonical and under the root;
the sibling `outside.txt`, reached through `..`, is rejected. -/
theorem resolve_containment_witness :
    (exFS.canonicalize (candidatePath exFS (exSrv false) "/static/hello.txt") =
        some ["root", "hello.txt"] ∧
      ∃ cr, exFS.canonicalize (exSrv false).root_dir = some cr ∧
        cr.isPrefixOf ["root", "hello.txt"] = true) ∧
    StaticServer.resolve exFS (exSrv false) "/static/../outside.txt" = none :=
  ⟨resolve_containment.1 exFS (exSrv false) "/static/hello.txt" ["root", "hello.txt"]
      (by decide),
   resolve_containment.2 exFS (exSrv false) "/static/../outside.txt" ["outside.txt"] ["root"]
      (by decide) (by decide) (by decide)⟩

/-- C5 counterexample: on the request `"/static//foo"` under mount `/static`,
the remainder is `"//foo"`; the code strips every leading slash and computes
the relative path `"foo"`, not the single-slash-stripped `"/foo"` the claim
describes. -/
theorem single_slash_strip_counterexample :
    StaticServer.relativePath (exSrv false) "/static//foo" = "foo" ∧
    StaticServer.relativePathSpec (exSrv false) "/static//foo" = "/foo" ∧
    ¬ StaticServer.relativePath (exSrv false) "/static//foo" =
        StaticServer.relativePathSpec (exSrv false) "/static//foo" := by
  decide

/-- C5 as amended: after the mount prefix is stripped, every leading `/` is
stripped from the remainder to form the relative path (which may be empty):
the remainder is a block of slashes followed by the relative path, and the
relative path never begins with `/`. -/
theorem relative_path_strips_all_slashes (srv : StaticServer) (request_path : String) :
    (srv.relativePath request_path).data.head? ≠ some '/' ∧
    ∃ n, (stripPrefixOrEmpty request_path srv.mount_path).data =
      List.replicate n '/' ++ (srv.relativePath request_path).data := by
  constructor
  · exact head?_dropWhile_slash_ne (stripPrefixOrEmpty request_path srv.mount_path).data
  · refine ⟨((stripPrefixOrEmpty request_path srv.mount_path).data.takeWhile
      (fun c => c == '/')).length, ?_⟩
    conv_lhs => rw [← List.takeWhile_append_dropWhile (fun c => c == '/')
      (stripPrefixOrEmpty request_path srv.mount_path).data]
    have h2 : (stripPrefixOrEmpty request_path srv.mount_path).data.takeWhile
        (fun c => c == '/') =
        List.replicate ((stripPrefixOrEmpty request_path srv.mount_path).data.takeWhile
          (fun c => c == '/')).length '/' := by
      apply List.eq_replicate_of_mem
      intro b hb
      simpa using List.mem_takeWhile_imp hb
    rw [← h2]
    rfl

/-- C10: the relative path never begins with `/`, so the join never takes the
absolute-path branch: the pre-canonicalization candidate is always the root
directory extended by the relative path's components. -/
theorem join_relative_never_absolute (srv : StaticServer) (request_path : String) :
    startsWithChar (srv.relativePath request_path) '/' = false ∧
    joinPath srv.root_dir (srv.relativePath request_path) =
      srv.root_dir ++ splitPath (srv.relativePath request_path) := by
  have hh : (srv.relativePath request_path).data.head? ≠ some '/' :=
    head?_dropWhile_slash_ne (stripPrefixOrEmpty request_path srv.mount_path).data
  have hch : startsWithChar (srv.relativePath request_path) '/' = false := by
    unfold startsWithChar
    cases hd : (srv.relativePath request_path).data.head? with
    | none => decide
    | some a =>
      have ha : ¬ a = '/' := by
        intro he
        exact hh (by rw [hd, he])
      simp [ha]
  refine ⟨hch, ?_⟩
  unfold joinPath
  rw [hch]
  simp

/-! ## Claims C6, C7 -/

/-- Zeta-reduced form of `candidatePath`. -/
lemma candidatePath_eq (fs : FSys) (srv : StaticServer) (request_path : String) :
    candidatePath fs srv request_path =
      (if fs.pathIsDir (joinPath srv.root_dir (srv.relativePath request_path))
          && srv.serve_index
       then joinPath srv.root_dir (srv.relativePath request_path) ++ ["index.html"]
       else joinPath srv.root_dir (srv.relativePath request_path)) := rfl

/-- `stat` through a successful canonicalization is the lookup at the
canonical path. -/
lemma stat_eq_lookup_of_canonicalize (fs : FSys) (p q : FsPath)
    (h : fs.canonicalize p = some q) : fs.stat p = fs.lookup q := by
  unfold FSys.stat
  rw [h]

/-- C6: a request mapping to an existing directory containing `index.html`
resolves to that index file when `serve_index` is true; resolves to none when
`serve_index` is false; and a directory lacking `index.html` resolves to none
even when `serve_index` is true. -/
theorem resolve_directory_policy :
    (∀ (fs : FSys) (srv : StaticServer) (request_path : String) (q cr : FsPath),
      startsWithStr request_path srv.mount_path = true →
      srv.serve_index = true →
      fs.pathIsDir (joinPath srv.root_dir (srv.relativePath request_path)) = true →
      fs.canonicalize
          (joinPath srv.root_dir (srv.relativePath request_path) ++ ["index.html"]) = some q →
      fs.lookup q = some NodeKind.file →
      fs.canonicalize srv.root_dir = some cr →
      cr.isPrefixOf q = true →
      StaticServer.resolve fs srv request_path = some q) ∧
    (∀ (fs : FSys) (srv : StaticServer) (request_path : String) (d : FsPath),
      startsWithStr request_path srv.mount_path = true →
      srv.serve_index = false →
      fs.canonicalize (joinPath srv.root_dir (srv.relativePath request_path)) = some d →
      fs.lookup d = some NodeKind.dir →
      StaticServer.resolve fs srv request_path = none) ∧
    (∀ (fs : FSys) (srv : StaticServer) (request_path : String) (d : FsPath),
      startsWithStr request_path srv.mount_path = true →
      srv.serve_index = true →
      fs.canonicalize (joinPath srv.root_dir (srv.relativePath request_path)) = some d →
      fs.lookup d = some NodeKind.dir →
      fs.lookup (d ++ ["index.html"]) = none →
      StaticServer.resolve fs srv request_path = none) := by
  refine ⟨?_, ?_, ?_⟩
  · intro fs srv request_path q cr hs hsi hdir hq hf hcr hpre
    unfold StaticServer.resolve
    rw [if_neg (by simp [hs])]
    rw [candidatePath_eq]
    rw [if_pos (by rw [hdir, hsi]; rfl)]
    rw [checkCandidate_some_some fs srv.root_dir _ q cr hq hcr]
    rw [hpre]
    simp only [Bool.not_true]
    rw [if_neg (by simp)]
    have hfile : fs.pathIsFile q = true := by
      unfold FSys.pathIsFile
      rw [stat_canonical fs _ q hq, hf]
    have hex : fs.pathExists q = true := by
      unfold FSys.pathExists
      rw [stat_canonical fs _ q hq, hf]
      rfl
    rw [if_pos (by rw [hex, hfile]; rfl)]
  · intro fs srv request_path d hs hsi hd hdir
    unfold StaticServer.resolve
    rw [if_neg (by simp [hs])]
    rw [candidatePath_eq]
    rw [if_neg (by rw [hsi]; simp)]
    cases hcr : fs.canonicalize srv.root_dir with
    | none => exact checkCandidate_none_root fs srv.root_dir _ d hd hcr
    | some cr =>
      rw [checkCandidate_some_some fs srv.root_dir _ d cr hd hcr]
      by_cases hpre : cr.isPrefixOf d = true
      · rw [hpre]
        simp only [Bool.not_true]
        rw [if_neg (by simp)]
        have hfile : fs.pathIsFile d = false := by
          unfold FSys.pathIsFile
          rw [stat_canonical fs _ d hd, hdir]
        rw [if_neg (by rw [hfile]; simp)]
      · have hpf : cr.isPrefixOf d = false := by
          revert hpre
          cases cr.isPrefixOf d <;> simp
        rw [hpf]
        simp
  · intro fs srv request_path d hs hsi hd hdir hnoidx
    unfold StaticServer.resolve
    rw [if_neg (by simp [hs])]
    rw [candidatePath_eq]
    have hpid : fs.pathIsDir (joinPath srv.root_dir (srv.relativePath request_path)) = true := by
      unfold FSys.pathIsDir
      rw [stat_eq_lookup_of_canonicalize fs _ d hd, hdir]
    rw [if_pos (by rw [hpid, hsi]; rfl)]
    obtain ⟨hw, hl⟩ := canonicalize_eq_parts fs _ d hd
    have hdn : fs.isDirNode d = true := by
      unfold FSys.isDirNode
      rw [hdir]
    have hw2 := walk_snoc fs _ d "index.html" hw hdn (by decide) (by decide)
    have hcan : fs.canonicalize
        (joinPath srv.root_dir (srv.relativePath request_path) ++ ["index.html"]) = none := by
      rw [canonicalize_walk_some fs _ (d ++ ["index.html"]) hw2]
      rw [hnoidx]
      simp
    exact checkCandidate_none_full fs srv.root_dir _ hcan

/-- Witness for C6: the example tree serves `docs/index.html` with
`serve_index` on, refuses `docs` with it off, and refuses the index-less
`images` even with it on. -/
theorem resolve_directory_policy_witness :
    StaticServer.resolve exFS (exSrv true) "/static/docs" =
      some ["root", "docs", "index.html"] ∧
    StaticServer.resolve exFS (exSrv false) "/static/docs" = none ∧
    StaticServer.resolve exFS (exSrv true) "/static/images" = none :=
  ⟨resolve_directory_policy.1 exFS (exSrv true) "/static/docs"
      ["root", "docs", "index.html"] ["root"]
      (by decide) rfl (by decide) (by decide) (by decide) (by decide) (by decide),
   resolve_directory_policy.2.1 exFS (exSrv false) "/static/docs" ["root", "docs"]
      (by decide) rfl (by decide) (by decide),
   resolve_directory_policy.2.2 exFS (exSrv true) "/static/images" ["root", "images"]
      (by decide) rfl (by decide) (by decide) (by decide)⟩

/-- C7: when the candidate is a directory and `serve_index` is true, the path
that is canonicalized and prefix-compared against the root is the candidate
with `index.html` appended — the containment check runs after the index
substitution, on the final path intended for reading. -/
theorem containment_checked_after_index_substitution
    (fs : FSys) (srv : StaticServer) (request_path : String)
    (hs : startsWithStr request_path srv.mount_path = true)
    (hsi : srv.serve_index = true)
    (hdir : fs.pathIsDir (joinPath srv.root_dir (srv.relativePath request_path)) = true) :
    candidatePath fs srv request_path =
      joinPath srv.root_dir (srv.relativePath request_path) ++ ["index.html"] ∧
    StaticServer.resolve fs srv request_path =
      checkCandidate fs srv.root_dir
        (joinPath srv.root_dir (srv.relativePath request_path) ++ ["index.html"]) := by
  have hc : candidatePath fs srv request_path =
      joinPath srv.root_dir (srv.relativePath request_path) ++ ["index.html"] := by
    rw [candidatePath_eq]
    rw [if_pos (by rw [hdir, hsi]; rfl)]
  refine ⟨hc, ?_⟩
  unfold StaticServer.resolve
  rw [if_neg (by simp [hs])]
  rw [hc]

/-- Witness for C7: a directory request under `serve_index` routes the
containment check through the appended `index.html`. -/
theorem containment_checked_after_index_substitution_witness :
    candidatePath exFS (exSrv true) "/static/docs" =
      joinPath (exSrv true).root_dir ((exSrv true).relativePath "/static/docs")
        ++ ["index.html"] ∧
    StaticServer.resolve exFS (exSrv true) "/static/docs" =
      checkCandidate exFS (exSrv true).root_dir
        (joinPath (exSrv true).root_dir ((exSrv true).relativePath "/static/docs")
          ++ ["index.html"]) :=
  containment_checked_after_index_substitution exFS (exSrv true) "/static/docs"
    (by decide) rfl (by decide)

/-! ## Claims C8, C9 -/

/-- C8: `read_file` fails with `NotFound` exactly when `resolve` returns none;
it fails with `Io e` exactly when `resolve` succeeded but reading the resolved
file's bytes failed with `e`; and it succeeds exactly when `resolve` yielded a
path whose bytes were read, returning those bytes, the MIME lookup's content
type for that path, and the path itself. -/
theorem read_file_error_mapping (ε : Type) (fs : FSys)
    (readBytes : FsPath → Except ε (List Nat)) (guessMime : FsPath → String)
    (srv : StaticServer) (request_path : String) :
    (StaticServer.read_file fs readBytes guessMime srv request_path =
        Except.error ServeError.NotFound ↔
      StaticServer.resolve fs srv request_path = none) ∧
    (∀ e, StaticServer.read_file fs readBytes guessMime srv request_path =
        Except.error (ServeError.Io e) ↔
      ∃ p, StaticServer.resolve fs srv request_path = some p ∧
        readBytes p = Except.error e) ∧
    (∀ f, StaticServer.read_file fs readBytes guessMime srv request_path = Except.ok f ↔
      ∃ p, StaticServer.resolve fs srv request_path = some p ∧
        readBytes p = Except.ok f.body ∧ f.mime_type = guessMime p ∧ f.path = p) := by
  cases hres : StaticServer.resolve fs srv request_path with
  | none =>
    refine ⟨by simp [StaticServer.read_file, hres], ?_, ?_⟩
    · intro e
      simp [StaticServer.read_file, hres]
    · intro f
      simp [StaticServer.read_file, hres]
  | some p =>
    cases hrb : readBytes p with
    | error e0 =>
      refine ⟨by simp [StaticServer.read_file, hres, hrb], ?_, ?_⟩
      · intro e
        simp [StaticServer.read_file, hres, hrb]
      · intro f
        simp [StaticServer.read_file, hres, hrb]
    | ok body0 =>
      refine ⟨by simp [StaticServer.read_file, hres, hrb], ?_, ?_⟩
      · intro e
        simp [StaticServer.read_file, hres, hrb]
      · intro f
        obtain ⟨fb, fm, fp⟩ := f
        simp only [StaticServer.read_file, hres, hrb]
        constructor
        · intro h
          injection h with h
          injection h with hb hm hp
          exact ⟨p, rfl, by rw [hrb, hb], by rw [hm], by rw [hp]⟩
        · intro h
          obtain ⟨p2, hp2, hbody, hmime, hpath⟩ := h
          injection hp2 with hp2
          subst hp2
          rw [hrb] at hbody
          injection hbody with hbody
          rw [hbody, hmime, hpath]

/-- C9: mount membership is a raw string-prefix test, not a path-segment
test: under the mount `/static`, the request `/staticfoo` passes the prefix
test, yields the relative path `foo`, and resolves to exactly the same
candidate and result as `/static/foo`. -/
theorem raw_prefix_mount_membership (fs : FSys) (root : FsPath) (si : Bool) :
    startsWithStr "/staticfoo" (StaticServer.mk "/static" root si).mount_path = true ∧
    StaticServer.relativePath (StaticServer.mk "/static" root si) "/staticfoo" = "foo" ∧
    candidatePath fs (StaticServer.mk "/static" root si) "/staticfoo" =
      candidatePath fs (StaticServer.mk "/static" root si) "/static/foo" ∧
    StaticServer.resolve fs (StaticServer.mk "/static" root si) "/staticfoo" =
      StaticServer.resolve fs (StaticServer.mk "/static" root si) "/static/foo" := by
  have h1 : startsWithStr "/staticfoo" (StaticServer.mk "/static" root si).mount_path = true := by
    show startsWithStr "/staticfoo" "/static" = true
    decide
  have h2 : startsWithStr "/static/foo" (StaticServer.mk "/static" root si).mount_path = true := by
    show startsWithStr "/static/foo" "/static" = true
    decide
  have hrel : StaticServer.relativePath (StaticServer.mk "/static" root si) "/staticfoo" =
      StaticServer.relativePath (StaticServer.mk "/static" root si) "/static/foo" := by
    show trimStartSlashes (stripPrefixOrEmpty "/staticfoo" "/static") =
      trimStartSlashes (stripPrefixOrEmpty "/static/foo" "/static")
    decide
  have hrel2 : StaticServer.relativePath (StaticServer.mk "/static" root si) "/staticfoo" =
      "foo" := by
    show trimStartSlashes (stripPrefixOrEmpty "/staticfoo" "/static") = "foo"
    decide
  have hcand : candidatePath fs (StaticServer.mk "/static" root si) "/staticfoo" =
      candidatePath fs (StaticServer.mk "/static" root si) "/static/foo" := by
    rw [candidatePath_eq, candidatePath_eq, hrel]
  refine ⟨h1, hrel2, hcand, ?_⟩
  unfold StaticServer.resolve
  rw [if_neg (by simp [h1]), if_neg (by simp [h2]), hcand]

end PavexStatic
